import Mathlib

/-!
Shallow embedding of the obsidian-mcp vault layer (Go) in Lean 4.

Strings are modelled as lists of characters (`Str`).  The Go standard
library pieces the vault relies on (`strings.HasPrefix/HasSuffix/Contains`,
`path/filepath.Clean/Join`) are embedded as executable functions; the
vault code itself (`internal/vault/vault.go`, `cache.go`, `tags.go`) is
translated function by function.
-/

/-- Strings are modelled as lists of characters. -/
abbrev Str := List Char

/-- The markdown extension `".md"` checked by the vault. -/
def mdSuffix : Str := ['.', 'm', 'd']

/-- The two-character sequence `".."` that `validatePath` scans for. -/
def dotdot : Str := ['.', '.']

/-- `strings.HasPrefix s pre`: `s` starts with `pre`. -/
def strHasPre : Str → Str → Bool
  | _, [] => true
  | [], _ :: _ => false
  | a :: as, b :: bs => a = b && strHasPre as bs

/-- `strings.HasSuffix s suf`: `s` ends with `suf`. -/
def strHasSuf (s suf : Str) : Bool := strHasPre s.reverse suf.reverse

/-- `strings.Contains s sub`: `sub` occurs contiguously inside `s`. -/
def strContains : Str → Str → Bool
  | [], sub => strHasPre [] sub
  | c :: t, sub => strHasPre (c :: t) sub || strContains t sub

/-! ### `path/filepath` : `Clean` and `Join` (Unix separator)

`filepath.Clean` is embedded at the path-component level: the input is
split at `'/'`, the components are processed with the usual `.`-drop /
`..`-pop stack discipline (keeping leading `..`s on unrooted paths and
dropping them on rooted ones, as Go does), and the survivors are
rejoined.  This computes exactly the string Go's byte-level algorithm
produces. -/

/-- Split a string at `'/'` separators; empty components are preserved.
The result is always non-empty. -/
def splitComps : Str → List Str
  | [] => [[]]
  | c :: cs =>
    if c = '/' then [] :: splitComps cs
    else
      match splitComps cs with
      | [] => [[c]]
      | h :: t => (c :: h) :: t

/-- Join components with `'/'` between them. -/
def interComps : List Str → Str
  | [] => []
  | [c] => c
  | c :: c₂ :: cs => c ++ '/' :: interComps (c₂ :: cs)

/-- Reassemble a (rooted or not) path from its components. -/
def joinComps (rooted : Bool) (cs : List Str) : Str :=
  if rooted then '/' :: interComps cs else interComps cs

/-- A rooted (absolute) path built from components. -/
def rootedJoin (cs : List Str) : Str := joinComps true cs

/-- The component-stack discipline of `filepath.Clean`: drop empty and
`"."` components; on `".."` pop the last kept component, except that on
a rooted path a `".."` with nothing to pop is dropped, and on an
unrooted path it is kept (accumulating leading `".."`s).  `acc` is the
stack of kept components in reverse order. -/
def cleanComps (rooted : Bool) : List Str → List Str → List Str
  | acc, [] => acc.reverse
  | acc, c :: cs =>
    if c = ([] : Str) ∨ c = ['.'] then cleanComps rooted acc cs
    else if c = dotdot then
      match acc with
      | [] => if rooted then cleanComps rooted [] cs else cleanComps rooted [dotdot] cs
      | a :: as => if a = dotdot then cleanComps rooted (c :: a :: as) cs else cleanComps rooted as cs
    else cleanComps rooted (c :: acc) cs

/-- A path is rooted when it starts with the separator. -/
def isRooted : Str → Bool
  | '/' :: _ => true
  | _ => false

/-- `filepath.Clean` (Unix): `""` cleans to `"."`; otherwise the
component stack is rebuilt, yielding `"/"` (rooted) or `"."` (unrooted)
when nothing survives. -/
def goClean (s : Str) : Str :=
  if s = [] then ['.']
  else
    let comps := cleanComps (isRooted s) [] (splitComps s)
    if comps = [] then (if isRooted s then ['/'] else ['.'])
    else joinComps (isRooted s) comps

/-- `filepath.Join a b` for two arguments: all-empty gives `""`,
otherwise the non-empty elements are joined with `'/'` and cleaned. -/
def goJoin (a b : Str) : Str :=
  if a = [] then (if b = [] then [] else goClean b)
  else goClean (a ++ '/' :: b)

/-! ### Vault errors and path validation (`internal/vault/vault.go`, `errors.go`) -/

/-- Sentinel error conditions of the vault layer.  `alreadyExists`
models the formatted "note already exists" error returned by `Create`. -/
inductive VErr where
  | invalidPath
  | pathTraversal
  | notMarkdown
  | noteNotFound
  | alreadyExists
deriving DecidableEq

deriving instance DecidableEq for Except

/-- `(*vault).validatePath` (vault.go lines 73-100): empty input is
`InvalidPath`; a cleaned path containing the substring `".."` is
`PathTraversal`; the path joined onto the base must keep the base as a
string prefix (else `PathTraversal`) and must end in `".md"` (else
`NotMarkdown`). -/
def validatePath (basePath path : Str) : Except VErr Str :=
  if path = [] then .error .invalidPath
  else if strContains (goClean path) dotdot then .error .pathTraversal
  else if strHasPre (goJoin basePath (goClean path)) basePath then
    if strHasSuf (goJoin basePath (goClean path)) mdSuffix then .ok (goJoin basePath (goClean path))
    else .error .notMarkdown
  else .error .pathTraversal

/-- The search-directory computation shared by `List` and `Search`
(vault.go lines 103-117 and 184-198): an empty subpath selects the base
itself; otherwise the cleaned subpath must not contain `".."` and the
joined path must keep the base as a string prefix. -/
def searchPathOf (basePath subpath : Str) : Except VErr Str :=
  if subpath = [] then
    if strHasPre basePath basePath then .ok basePath else .error .pathTraversal
  else if strContains (goClean subpath) dotdot then .error .pathTraversal
  else if strHasPre (goJoin basePath (goClean subpath)) basePath then
    .ok (goJoin basePath (goClean subpath))
  else .error .pathTraversal

/-- A well-formed path component: non-empty, not `"."`, not `".."`, and
containing no separator.  The components of the canonicalized vault
root produced by `filepath.Abs` are of this shape. -/
def goodComp (c : Str) : Prop := c ≠ [] ∧ c ≠ ['.'] ∧ c ≠ dotdot ∧ '/' ∉ c

/-- All components of a list are well-formed. -/
def goodComps (cs : List Str) : Prop := ∀ c ∈ cs, goodComp c

/-- `full` lies strictly below the directory `base`: it extends `base`
past a separator by a non-empty remainder. -/
def strictlyUnder (base full : Str) : Prop :=
  ∃ rest, rest ≠ [] ∧ full = (if base = ['/'] then base else base ++ ['/']) ++ rest

/-- `full` is the directory `base` itself or lies strictly below it. -/
def underOrEq (base full : Str) : Prop := full = base ∨ strictlyUnder base full

/-! ### Lemmas about the component decomposition -/

/-- Components kept by `cleanComps` when no `".."` is around. -/
def keepComp (c : Str) : Bool := if c = ([] : Str) ∨ c = ['.'] then false else true

/-! ### Tag extraction (`internal/vault/tags.go`)

`tagRegex = #(\w+)` with `FindAllStringSubmatch` scans left to right: at
each `'#'` followed by at least one word character the maximal word-
character run is captured and scanning resumes after it.  Go's `\w` is
ASCII `[0-9A-Za-z_]`.  The runs are lowercased and deduplicated through
a map; since Go map iteration order is unspecified, the embedding fixes
the first-occurrence order — every claim about the result is stated up
to set equality. -/

/-- Go regexp `\w`: ASCII letters, digits and underscore. -/
def wordChar (c : Char) : Bool := c.isAlpha || c.isDigit || c = '_'

/-- The successive `#(\w+)` capture groups found in a string, in match
order.  `FindAllStringSubmatch` emits the maximal word-character run
after each `'#'` and resumes scanning after the run; since a run never
contains `'#'`, resuming at the next character instead (as below, to
keep the recursion structural) visits no extra match start and yields
the same list of captures. -/
def findTags : Str → List Str
  | [] => []
  | c :: rest =>
    if c = '#' ∧ wordChar (rest.headD ' ') then
      rest.takeWhile wordChar :: findTags rest
    else findTags rest

/-- `ExtractTags` (tags.go lines 15-37): all capture groups, lowercased
and deduplicated.  (The Go code returns an empty slice when there are
no matches; mapping and deduplicating the empty list yields the same.) -/
def extractTags (content : Str) : List Str :=
  ((findTags content).map (List.map Char.toLower)).dedup

/-- Declarative reading of one tag occurrence: `run` is a non-empty
maximal word-character run immediately following a `'#'` in `s`. -/
def isTagOcc (s run : Str) : Prop :=
  run ≠ [] ∧ (∀ c ∈ run, wordChar c = true) ∧
    ∃ pre post, s = pre ++ '#' :: run ++ post ∧ wordChar (post.headD ' ') = false

/-! ### Association lists standing in for Go maps -/

/-- Go map lookup. -/
def lookupL {α : Type} : List (Str × α) → Str → Option α
  | [], _ => none
  | (k, v) :: rest, p => if k = p then some v else lookupL rest p

/-- Go map insert-or-replace. -/
def insertL {α : Type} : List (Str × α) → Str → α → List (Str × α)
  | [], k, v => [(k, v)]
  | (k₀, v₀) :: rest, k, v =>
    if k₀ = k then (k, v) :: rest else (k₀, v₀) :: insertL rest k v

/-- Go map delete. -/
def eraseL {α : Type} : List (Str × α) → Str → List (Str × α)
  | [], _ => []
  | (k₀, v₀) :: rest, k =>
    if k₀ = k then eraseL rest k else (k₀, v₀) :: eraseL rest k

/-! ### The content cache (`internal/vault/cache.go`)

Modification times are modelled as integers; `time.Time.Equal` is
integer equality.  The filesystem stat is a parameter
`stat : Str → Option Int` (`none` models a failing `os.Stat`). -/

/-- `CacheEntry` (cache.go lines 10-14). -/
structure CEntry where
  content : Str
  tags : List Str
  mtime : Int
deriving DecidableEq

/-- The cache map. -/
abbrev CacheL := List (Str × CEntry)

/-- `Cache.Set` (cache.go lines 69-77): insert or replace the entry. -/
def cacheSet (c : CacheL) (p content : Str) (tags : List Str) (mtime : Int) : CacheL :=
  insertL c p ⟨content, tags, mtime⟩

/-- The locked double-check deletion inside `Cache.Get` (cache.go lines
47-51 and 57-61): delete the entry only if one is still present and its
recorded modification time equals the one observed before the stat. -/
def purgeIfSame (c : CacheL) (p : Str) (observed : Int) : CacheL :=
  match lookupL c p with
  | some cur => if cur.mtime = observed then eraseL c p else c
  | none => c

/-- `Cache.Get` (cache.go lines 33-66), sequential form: look the entry
up; stat the file outside any lock; on stat failure or modification-
time mismatch run the double-checked purge and report a miss; otherwise
return the entry.  The returned cache is the possibly purged map. -/
def cacheGet (stat : Str → Option Int) (c : CacheL) (p : Str) : Option CEntry × CacheL :=
  match lookupL c p with
  | none => (none, c)
  | some entry =>
    match stat p with
    | none => (none, purgeIfSame c p entry.mtime)
    | some m =>
      if m = entry.mtime then (some entry, c)
      else (none, purgeIfSame c p entry.mtime)

/-- `Cache.Delete` (cache.go lines 80-84). -/
def cacheDelete (c : CacheL) (p : Str) : CacheL := eraseL c p

/-! ### Go slice semantics for the cache's `Tags` field

`Cache.Set` stores the `tags []string` argument it is handed and
`Cache.Get` returns the stored struct; a Go slice is a reference into a
backing array, so this is reference sharing, not copying.  The backing
arrays live in an explicit heap and a slice value is an index into it. -/

/-- A Go slice value: a reference to a backing array in the heap. -/
structure GoSlice where
  id : Nat
deriving DecidableEq

/-- The heap of `[]string` backing arrays. -/
abbrev Heap := List (List Str)

/-- Read the whole backing array of a slice. -/
def readSlice (h : Heap) (s : GoSlice) : List Str := h.getD s.id []

/-- `sl[i] = v`: mutate one element of a slice's backing array. -/
def writeSlice (h : Heap) (s : GoSlice) (i : Nat) (v : Str) : Heap :=
  h.set s.id ((h.getD s.id []).set i v)

/-- `CacheEntry` as Go represents it: the `Tags` field is a slice
reference. -/
structure CEntryG where
  content : Str
  tags : GoSlice
  mtime : Int
deriving DecidableEq

/-- The cache map with reference-typed entries. -/
abbrev CacheG := List (Str × CEntryG)

/-- `Cache.Set` at the Go representation level (cache.go lines 69-77):
the entry stores the very slice reference the caller passed in. -/
def cacheSetG (c : CacheG) (p content : Str) (tags : GoSlice) (mtime : Int) : CacheG :=
  insertL c p ⟨content, tags, mtime⟩

/-- The double-checked purge at the Go representation level. -/
def purgeIfSameG (c : CacheG) (p : Str) (observed : Int) : CacheG :=
  match lookupL c p with
  | some cur => if cur.mtime = observed then eraseL c p else c
  | none => c

/-- `Cache.Get` at the Go representation level (cache.go lines 33-66):
the returned struct copy still carries the stored slice reference. -/
def cacheGetG (stat : Str → Option Int) (c : CacheG) (p : Str) : Option CEntryG × CacheG :=
  match lookupL c p with
  | none => (none, c)
  | some entry =>
    match stat p with
    | none => (none, purgeIfSameG c p entry.mtime)
    | some m =>
      if m = entry.mtime then (some entry, c)
      else (none, purgeIfSameG c p entry.mtime)

/-! ### Directory trees and `filepath.Walk` (for `List` and `Search`)

The filesystem seen by a tree walk is a rose tree; `readable = false`
on a file models a failing `os.Lstat`/`os.ReadFile`, on a directory a
failing directory read — in both cases `filepath.Walk` hands the walk
function a non-nil error, the walk functions in vault.go return nil,
and the subtree is skipped.  Cache consultation inside the walk is
omitted: `Cache.Get` only returns an entry whose recorded modification
time equals the file's current one, and every `Cache.Set` in vault.go
stores content just read from the file together with that same stat
time, so under sequential execution a cache hit returns exactly what
reading the file would. -/

mutual
/-- A node of the directory tree. -/
inductive FTree where
  | file (name : Str) (readable : Bool) (content : Str) : FTree
  | dir (name : Str) (readable : Bool) (children : FForest) : FTree
deriving DecidableEq

/-- A list of sibling nodes, in the order `filepath.Walk` visits them. -/
inductive FForest where
  | nil : FForest
  | cons (t : FTree) (rest : FForest) : FForest
deriving DecidableEq
end

/-- The name of a node (used by the parent to build the child path). -/
def FTree.nodeName : FTree → Str
  | .file n _ _ => n
  | .dir n _ _ => n

mutual
/-- The walk of `List` (vault.go lines 121-176) restricted to the data
it accumulates: the `(absolute path, content)` pairs of included files.
A node is visited at `path`; an unreadable node is skipped; a directory
other than the start `sp` is pruned when `recursive` is false; a file
is included when its path ends in `".md"`. -/
def visitNode (recursive : Bool) (sp : Str) (path : Str) : FTree → List (Str × Str)
  | .file _ r content =>
    if r then (if strHasSuf path mdSuffix then [(path, content)] else []) else []
  | .dir _ r children =>
    if r then
      if recursive = false ∧ path ≠ sp then []
      else visitForest recursive sp path children
    else []

/-- Walk the children of a directory at `path`, left to right. -/
def visitForest (recursive : Bool) (sp : Str) (path : Str) : FForest → List (Str × Str)
  | .nil => []
  | .cons t rest =>
    visitNode recursive sp (path ++ '/' :: t.nodeName) t ++ visitForest recursive sp path rest
end

mutual
/-- The walk of `Search` (vault.go lines 218-288) restricted to file
collection: never prunes on a directory, skips unreadable nodes,
collects `".md"` files. -/
def mdFilesUnder (path : Str) : FTree → List (Str × Str)
  | .file _ r content =>
    if r then (if strHasSuf path mdSuffix then [(path, content)] else []) else []
  | .dir _ r children => if r then mdFilesUnderF path children else []

/-- Collect markdown files below a forest of siblings. -/
def mdFilesUnderF (path : Str) : FForest → List (Str × Str)
  | .nil => []
  | .cons t rest => mdFilesUnder (path ++ '/' :: t.nodeName) t ++ mdFilesUnderF path rest
end

/-- `NoteInfo` (vault.go lines 13-16). -/
structure NoteInfo where
  path : Str
  tags : List Str
deriving DecidableEq

/-- `filepath.Rel basePath p` for the paths produced by the walks,
which all extend `basePath ++ "/"`: drop that prefix. -/
def relOf (basePath p : Str) : Str := p.drop (basePath.length + 1)

/-- `(*vault).List` (vault.go lines 103-181).  `lookupT sp` is the
filesystem subtree rooted at the absolute path `sp` (`none` models a
failing `os.Lstat` of `sp`, which `filepath.Walk` reports to the walk
function as an error; the walk function returns nil, so the walk ends
with no error and no entries). -/
def goList (basePath subpath : Str) (recursive : Bool)
    (lookupT : Str → Option FTree) : Except VErr (List NoteInfo) :=
  match searchPathOf basePath subpath with
  | .error e => .error e
  | .ok sp =>
    match lookupT sp with
    | none => .ok []
    | some t =>
      .ok ((visitNode recursive sp sp t).map
        (fun pc => ⟨relOf basePath pc.1, extractTags pc.2⟩))

/-- The per-file body of Search's walk function (vault.go lines
238-285): apply the query filter, then — when the lowercased tag filter
is non-empty — keep the file only if one of its tags is in the filter;
emit the vault-relative path with the note's tags. -/
def searchKeep (basePath : Str) (queryMatch : Option (Str → Bool)) (lowered : List Str)
    (pc : Str × Str) : Option NoteInfo :=
  let noteTags := extractTags pc.2
  if (match queryMatch with | some f => f pc.2 | none => true) then
    if lowered.isEmpty = false then
      if noteTags.any (fun t₀ => lowered.contains t₀) then
        some ⟨relOf basePath pc.1, noteTags⟩
      else none
    else some ⟨relOf basePath pc.1, noteTags⟩
  else none

/-- `(*vault).Search` (vault.go lines 184-293).  The compiled
case-insensitive query regex is abstracted as a predicate
`queryMatch : Str → Bool` (`none` when `query` is empty, in which case
no content filter applies); `filterTags` is the raw `tags` argument,
lowercased into the filter map as in lines 211-214. -/
def goSearch (basePath subpath : Str) (queryMatch : Option (Str → Bool))
    (filterTags : List Str) (lookupT : Str → Option FTree) : Except VErr (List NoteInfo) :=
  match searchPathOf basePath subpath with
  | .error e => .error e
  | .ok sp =>
    match lookupT sp with
    | none => .ok []
    | some t =>
      .ok ((mdFilesUnder sp t).filterMap
        (searchKeep basePath queryMatch (filterTags.map (List.map Char.toLower))))

/-! ### The flat filesystem and the `Read`/`Create`/`Update` operations

A flat map from absolute path to `(content, mtime)` models the files;
`os.Stat` is a lookup of the mtime, `os.ReadFile` a lookup of the
content (so the unreachable "stat succeeded but read failed" branch of
`Read` has no counterpart), `os.WriteFile` an insert.  `MkdirAll` has
no effect on a flat map.  Each write stamps the file with the current
value of a logical clock, incremented per write, so a rewritten file
always gets a fresh modification time. -/

/-- A file on disk: content plus modification time. -/
structure FileRec where
  content : Str
  mtime : Int
deriving DecidableEq

/-- The whole mutable state touched by `Read`/`Create`/`Update`. -/
structure VState where
  files : List (Str × FileRec)
  cache : CacheL
  clock : Int
deriving DecidableEq

/-- `os.Stat` on the flat filesystem: the file's modification time. -/
def statOf (files : List (Str × FileRec)) (p : Str) : Option Int :=
  (lookupL files p).map (fun fr => fr.mtime)

/-- `(*vault).Create` (vault.go lines 330-360): validate, fail if a
file already exists, write the content with a fresh modification time,
then populate the cache from the written content and the new stat. -/
def vCreate (basePath : Str) (st : VState) (p content : Str) : VState × Option VErr :=
  match validatePath basePath p with
  | .error e => (st, some e)
  | .ok full =>
    match statOf st.files full with
    | some _ => (st, some .alreadyExists)
    | none =>
      let m := st.clock
      let files₂ := insertL st.files full ⟨content, m⟩
      let cache₂ := cacheSet st.cache full content (extractTags content) m
      (⟨files₂, cache₂, st.clock + 1⟩, none)

/-- `(*vault).Update` (vault.go lines 363-390): validate, fail with
`NoteNotFound` if the file does not exist, overwrite in place with a
fresh modification time, then refresh the cache. -/
def vUpdate (basePath : Str) (st : VState) (p content : Str) : VState × Option VErr :=
  match validatePath basePath p with
  | .error e => (st, some e)
  | .ok full =>
    match statOf st.files full with
    | none => (st, some .noteNotFound)
    | some _ =>
      let m := st.clock
      let files₂ := insertL st.files full ⟨content, m⟩
      let cache₂ := cacheSet st.cache full content (extractTags content) m
      (⟨files₂, cache₂, st.clock + 1⟩, none)

/-- `(*vault).Read` (vault.go lines 296-327): validate, fail with
`NoteNotFound` if the file does not exist, serve from the cache when
`Cache.Get` hits, otherwise read the file, extract tags, populate the
cache with the stat's modification time and return the content. -/
def vRead (basePath : Str) (st : VState) (p : Str) : Except VErr Str × VState :=
  match validatePath basePath p with
  | .error e => (.error e, st)
  | .ok full =>
    match lookupL st.files full with
    | none => (.error .noteNotFound, st)
    | some fr =>
      match cacheGet (statOf st.files) st.cache full with
      | (some entry, cache₂) => (.ok entry.content, ⟨st.files, cache₂, st.clock⟩)
      | (none, cache₂) =>
        let tags := extractTags fr.content
        (.ok fr.content,
          ⟨st.files, cacheSet cache₂ full fr.content tags fr.mtime, st.clock⟩)

/-! ### Spec-side predicate used to compare with the implementation -/

/-- Modelled from the spec: "the normalized form still contains a
parent-directory segment" — some path component of the cleaned string
is exactly `".."`.  This is the spec's reading of the traversal check,
to be compared with the implementation's substring test. -/
def hasParentSeg (s : Str) : Bool := (splitComps s).any (· = dotdot)

/-- The direct child files of a directory: what a non-recursive `List`
is expected to return — readable root-level `".md"` files only. -/
def directFiles (sp : Str) : FForest → List (Str × Str)
  | .nil => []
  | .cons t rest =>
    (match t with
      | .file n r c =>
        if r then
          (if strHasSuf (sp ++ '/' :: n) mdSuffix then [(sp ++ '/' :: n, c)] else [])
        else []
      | .dir _ _ _ => []) ++ directFiles sp rest

/-- Every path a walk emits is the node's own path or extends it past a
separator. -/
def extendsDir (base q : Str) : Prop := q = base ∨ ∃ rest, q = base ++ '/' :: rest

instance : DecidablePred goodComp := fun c => by
  unfold goodComp
  infer_instance

instance (cs : List Str) : Decidable (goodComps cs) := by
  unfold goodComps
  infer_instance

theorem strHasPre_iff (s pre : Str) : strHasPre s pre = true ↔ ∃ t, s = pre ++ t := by
  induction pre generalizing s with
  | nil => simp [strHasPre]
  | cons b bs ih =>
    cases s with
    | nil => simp [strHasPre]
    | cons a as =>
      simp only [strHasPre, Bool.and_eq_true, decide_eq_true_eq, ih, List.cons_append,
        List.cons.injEq]
      constructor
      · rintro ⟨rfl, t, rfl⟩; exact ⟨t, rfl, rfl⟩
      · rintro ⟨t, rfl, rfl⟩; exact ⟨rfl, t, rfl⟩

theorem strHasPre_refl (s : Str) : strHasPre s s = true :=
  (strHasPre_iff s s).2 ⟨[], by simp⟩

theorem strHasPre_append (s t : Str) : strHasPre (s ++ t) s = true :=
  (strHasPre_iff _ s).2 ⟨t, rfl⟩

theorem strHasSuf_iff (s suf : Str) : strHasSuf s suf = true ↔ ∃ u, s = u ++ suf := by
  unfold strHasSuf
  rw [strHasPre_iff]
  constructor
  · rintro ⟨t, ht⟩
    refine ⟨t.reverse, ?_⟩
    have := congrArg List.reverse ht
    simpa using this
  · rintro ⟨u, rfl⟩
    exact ⟨u.reverse, by simp⟩

theorem strContains_iff (s sub : Str) : strContains s sub = true ↔ ∃ u t, s = u ++ sub ++ t := by
  induction s with
  | nil =>
    simp only [strContains, strHasPre_iff]
    constructor
    · rintro ⟨t, ht⟩; exact ⟨[], t, ht⟩
    · rintro ⟨u, t, h⟩
      cases u with
      | nil => exact ⟨t, by simpa using h⟩
      | cons a as => simp at h
  | cons c cs ih =>
    simp only [strContains, Bool.or_eq_true, strHasPre_iff, ih]
    constructor
    · rintro (⟨t, ht⟩ | ⟨u, t, ht⟩)
      · exact ⟨[], t, by simpa using ht⟩
      · exact ⟨c :: u, t, by simp [ht]⟩
    · rintro ⟨u, t, ht⟩
      cases u with
      | nil => exact Or.inl ⟨t, by simpa using ht⟩
      | cons a as =>
        simp only [List.cons_append, List.cons.injEq] at ht
        exact Or.inr ⟨as, t, ht.2⟩

theorem strictlyUnder_length {base full : Str} (h : strictlyUnder base full) :
    base.length < full.length := by
  obtain ⟨rest, hne, rfl⟩ := h
  have : 0 < rest.length := List.length_pos.2 hne
  split
  · simp only [List.length_append]; omega
  · simp only [List.length_append, List.length_cons]; omega

theorem splitComps_ne_nil (s : Str) : splitComps s ≠ [] := by
  cases s with
  | nil => simp [splitComps]
  | cons c cs =>
    simp only [splitComps]
    split
    · simp
    · split <;> simp

theorem splitComps_append (a b : Str) :
    splitComps (a ++ '/' :: b) = splitComps a ++ splitComps b := by
  induction a with
  | nil => simp [splitComps]
  | cons c cs ih =>
    simp only [List.cons_append, splitComps]
    by_cases hc : c = '/'
    · rw [if_pos hc, if_pos hc]
      simp only [List.append_eq, ih]
      rfl
    · rw [if_neg hc, if_neg hc]
      simp only [List.append_eq, ih]
      rcases h : splitComps cs with _ | ⟨h₀, t⟩
      · exact absurd h (splitComps_ne_nil cs)
      · rfl

theorem mem_splitComps_no_slash {s c : Str} (h : c ∈ splitComps s) : '/' ∉ c := by
  induction s generalizing c with
  | nil => simp [splitComps] at h; simp [h]
  | cons a as ih =>
    simp only [splitComps] at h
    by_cases ha : a = '/'
    · simp only [if_pos ha] at h
      rcases List.mem_cons.1 h with rfl | h
      · simp
      · exact ih h
    · simp only [if_neg ha] at h
      rcases hs : splitComps as with _ | ⟨h₀, t⟩
      · exact absurd hs (splitComps_ne_nil as)
      · rw [hs] at h
        rcases List.mem_cons.1 h with rfl | h
        · intro hmem
          rcases List.mem_cons.1 hmem with h' | h'
          · exact ha h'.symm
          · exact ih (hs ▸ List.mem_cons_self h₀ t) h'
        · exact ih (hs ▸ List.mem_cons_of_mem h₀ h)

theorem splitComps_of_no_slash {s : Str} (h : '/' ∉ s) : splitComps s = [s] := by
  induction s with
  | nil => simp [splitComps]
  | cons c cs ih =>
    have hc : c ≠ '/' := fun hc => h (hc ▸ List.mem_cons_self c cs)
    have hcs : '/' ∉ cs := fun hm => h (List.mem_cons_of_mem c hm)
    simp only [splitComps, if_neg fun hcc => hc hcc, ih hcs]

theorem splitComps_interComps {cs : List Str} (hne : cs ≠ [])
    (h : ∀ c ∈ cs, '/' ∉ c) : splitComps (interComps cs) = cs := by
  induction cs with
  | nil => exact absurd rfl hne
  | cons c cs ih =>
    cases cs with
    | nil => simpa [interComps] using splitComps_of_no_slash (h c (by simp))
    | cons c₂ cs₂ =>
      have h1 : interComps (c :: c₂ :: cs₂) = c ++ '/' :: interComps (c₂ :: cs₂) := rfl
      rw [h1, splitComps_append, splitComps_of_no_slash (h c (by simp)),
        ih (by simp) (fun x hx => h x (List.mem_cons_of_mem c hx))]
      rfl

theorem interComps_append {bc ds : List Str} (hbc : bc ≠ []) (hds : ds ≠ []) :
    interComps (bc ++ ds) = interComps bc ++ '/' :: interComps ds := by
  induction bc with
  | nil => exact absurd rfl hbc
  | cons b bc ih =>
    cases bc with
    | nil =>
      cases ds with
      | nil => exact absurd rfl hds
      | cons d ds₂ => simp [interComps]
    | cons b₂ bc₂ =>
      have h1 : interComps (b :: b₂ :: bc₂) = b ++ '/' :: interComps (b₂ :: bc₂) := rfl
      have h2 : (b :: b₂ :: bc₂) ++ ds = b :: (b₂ :: bc₂ ++ ds) := rfl
      have h3 : interComps (b :: (b₂ :: bc₂ ++ ds)) =
          b ++ '/' :: interComps (b₂ :: bc₂ ++ ds) := rfl
      rw [h2, h3, ih (by simp), h1]
      simp

theorem interComps_ne_nil {cs : List Str} (hne : cs ≠ []) (h : ∀ c ∈ cs, c ≠ []) :
    interComps cs ≠ [] := by
  cases cs with
  | nil => exact absurd rfl hne
  | cons c cs =>
    cases cs with
    | nil => exact h c (by simp)
    | cons c₂ cs₂ =>
      have h1 : interComps (c :: c₂ :: cs₂) = c ++ '/' :: interComps (c₂ :: cs₂) := rfl
      rw [h1]
      intro hcontra
      rcases List.append_eq_nil.1 hcontra with ⟨h2, h3⟩
      simp at h3

theorem cleanComps_no_pop (rooted : Bool) {cs : List Str}
    (h : ∀ c ∈ cs, c ≠ dotdot) (acc : List Str) :
    cleanComps rooted acc cs = acc.reverse ++ cs.filter keepComp := by
  induction cs generalizing acc with
  | nil => simp [cleanComps]
  | cons c cs ih =>
    have hc : c ≠ dotdot := h c (by simp)
    have hcs : ∀ x ∈ cs, x ≠ dotdot := fun x hx => h x (List.mem_cons_of_mem c hx)
    simp only [cleanComps]
    by_cases hdrop : c = ([] : Str) ∨ c = ['.']
    · rw [if_pos hdrop, ih hcs acc, List.filter_cons]
      simp [keepComp, if_pos hdrop]
    · rw [if_neg hdrop, if_neg hc, ih hcs (c :: acc), List.filter_cons]
      simp [keepComp, if_neg hdrop]

theorem splitComps_head_extend (s : Str) : ∃ v, s = (splitComps s).headD [] ++ v := by
  induction s with
  | nil => exact ⟨[], rfl⟩
  | cons c cs ih =>
    by_cases hc : c = '/'
    · subst hc
      exact ⟨'/' :: cs, by simp [splitComps]⟩
    · rcases hs : splitComps cs with _ | ⟨h₀, t⟩
      · exact absurd hs (splitComps_ne_nil cs)
      · obtain ⟨v, hv⟩ := ih
        rw [hs] at hv
        refine ⟨v, ?_⟩
        simp only [splitComps, if_neg hc, hs, List.headD_cons]
        simpa using hv

theorem mem_splitComps_decomp {s c : Str} (h : c ∈ splitComps s) : ∃ u v, s = u ++ c ++ v := by
  induction s generalizing c with
  | nil =>
    simp only [splitComps, List.mem_singleton] at h
    exact ⟨[], [], by simp [h]⟩
  | cons a as ih =>
    by_cases ha : a = '/'
    · simp only [splitComps, if_pos ha] at h
      rcases List.mem_cons.1 h with rfl | h
      · exact ⟨[], a :: as, by simp⟩
      · obtain ⟨u, v, hv⟩ := ih h
        exact ⟨a :: u, v, by simp [hv]⟩
    · rcases hs : splitComps as with _ | ⟨h₀, t⟩
      · exact absurd hs (splitComps_ne_nil as)
      · simp only [splitComps, if_neg ha, hs] at h
        rcases List.mem_cons.1 h with rfl | h
        · obtain ⟨v, hv⟩ := splitComps_head_extend as
          rw [hs] at hv
          simp only [List.headD_cons] at hv
          exact ⟨[], v, by simp [hv]⟩
        · obtain ⟨u, v, hv⟩ := ih (hs ▸ List.mem_cons_of_mem h₀ h)
          exact ⟨a :: u, v, by simp [hv]⟩

theorem comp_ne_dotdot {s c : Str} (hc : c ∈ splitComps s)
    (h : strContains s dotdot = false) : c ≠ dotdot := by
  intro heq
  obtain ⟨u, v, hv⟩ := mem_splitComps_decomp hc
  rw [heq] at hv
  have : strContains s dotdot = true := (strContains_iff s dotdot).2 ⟨u, v, hv⟩
  rw [h] at this
  exact Bool.false_ne_true this

theorem keepComp_of_good {c : Str} (h : goodComp c) : keepComp c = true := by
  obtain ⟨h1, h2, _, _⟩ := h
  simp [keepComp, h1, h2]

theorem goClean_rooted (x : Str) :
    goClean ('/' :: x) = rootedJoin (cleanComps true [] (splitComps ('/' :: x))) := by
  have h1 : ('/' :: x) ≠ ([] : Str) := by simp
  have h2 : isRooted ('/' :: x) = true := rfl
  simp only [goClean, if_neg h1, h2, rootedJoin, joinComps, if_pos rfl]
  split
  · rename_i hcomps
    rw [hcomps]
    rfl
  · rfl

theorem keepComp_iff (c : Str) : keepComp c = true ↔ (c ≠ [] ∧ c ≠ ['.']) := by
  simp only [keepComp]
  split
  · rename_i h
    simp only [Bool.false_eq_true, false_iff]
    intro hcon
    exact absurd h (by rintro (h | h) <;> [exact hcon.1 h; exact hcon.2 h])
  · rename_i h
    push_neg at h
    simpa using h

theorem goClean_base_join (bc : List Str) (hbc : goodComps bc) (cleaned : Str)
    (hdd : strContains cleaned dotdot = false) :
    goClean (rootedJoin bc ++ '/' :: cleaned) =
      rootedJoin (bc ++ (splitComps cleaned).filter keepComp) := by
  have hshape : rootedJoin bc ++ '/' :: cleaned = '/' :: (interComps bc ++ '/' :: cleaned) := by
    simp [rootedJoin, joinComps]
  rw [hshape, goClean_rooted]
  have hsp : splitComps ('/' :: (interComps bc ++ '/' :: cleaned)) =
      [] :: (splitComps (interComps bc) ++ splitComps cleaned) := by
    have h1 : splitComps ('/' :: (interComps bc ++ '/' :: cleaned)) =
        [] :: splitComps (interComps bc ++ '/' :: cleaned) := by
      simp [splitComps]
    rw [h1, splitComps_append]
  rw [hsp]
  congr 1
  have hclean : ∀ c ∈ splitComps cleaned, c ≠ dotdot := fun c hc => comp_ne_dotdot hc hdd
  by_cases hbcnil : bc = []
  · subst hbcnil
    have h2 : splitComps (interComps ([] : List Str)) = [[]] := rfl
    rw [h2]
    have hnd : ∀ c ∈ (([] : Str) :: ([[]] ++ splitComps cleaned)), c ≠ dotdot := by
      intro c hc
      rcases List.mem_cons.1 hc with rfl | hc
      · simp [dotdot]
      · rcases List.mem_append.1 hc with hc | hc
        · simp only [List.mem_singleton] at hc
          simp [hc, dotdot]
        · exact hclean c hc
    rw [cleanComps_no_pop true hnd []]
    simp [List.filter_cons, keepComp]
  · have h2 : splitComps (interComps bc) = bc :=
      splitComps_interComps hbcnil (fun c hc => (hbc c hc).2.2.2)
    rw [h2]
    have hnd : ∀ c ∈ (([] : Str) :: (bc ++ splitComps cleaned)), c ≠ dotdot := by
      intro c hc
      rcases List.mem_cons.1 hc with rfl | hc
      · simp [dotdot]
      · rcases List.mem_append.1 hc with hc | hc
        · exact (hbc c hc).2.2.1
        · exact hclean c hc
    rw [cleanComps_no_pop true hnd []]
    have hkeep : List.filter keepComp bc = bc :=
      List.filter_eq_self.2 (fun c hc => keepComp_of_good (hbc c hc))
    simp [List.filter_cons, keepComp, List.filter_append, hkeep]

theorem rootedJoin_ne_nil (cs : List Str) : rootedJoin cs ≠ [] := by
  simp [rootedJoin, joinComps]

theorem goJoin_base (bc : List Str) (hbc : goodComps bc) (cleaned : Str)
    (hdd : strContains cleaned dotdot = false) :
    ∃ ds, goodComps ds ∧ goJoin (rootedJoin bc) cleaned = rootedJoin (bc ++ ds) := by
  refine ⟨(splitComps cleaned).filter keepComp, ?_, ?_⟩
  · intro c hcmem
    have hc := List.mem_filter.1 hcmem
    have hk := (keepComp_iff c).1 hc.2
    exact ⟨hk.1, hk.2, comp_ne_dotdot hc.1 hdd, mem_splitComps_no_slash hc.1⟩
  · rw [goJoin, if_neg (rootedJoin_ne_nil bc)]
    exact goClean_base_join bc hbc cleaned hdd

theorem interComps_nil : interComps [] = [] := rfl

theorem rootedJoin_append_pre (bc ds : List Str) (hbc : goodComps bc) (hds : goodComps ds) :
    strHasPre (rootedJoin (bc ++ ds)) (rootedJoin bc) = true := by
  rcases List.eq_nil_or_concat ds with rfl | _
  · simpa using strHasPre_refl (rootedJoin bc)
  · have hdsne : ds ≠ [] := by rintro rfl; simp_all
    by_cases hbcnil : bc = []
    · subst hbcnil
      simp only [List.nil_append]
      exact (strHasPre_iff _ _).2 ⟨interComps ds, by simp [rootedJoin, joinComps, interComps_nil]⟩
    · refine (strHasPre_iff _ _).2 ⟨'/' :: interComps ds, ?_⟩
      simp [rootedJoin, joinComps, interComps_append hbcnil hdsne]

theorem rootedJoin_underOrEq (bc ds : List Str) (hbc : goodComps bc) (hds : goodComps ds) :
    underOrEq (rootedJoin bc) (rootedJoin (bc ++ ds)) := by
  rcases List.eq_nil_or_concat ds with rfl | _
  · exact Or.inl (by simp)
  · have hdsne : ds ≠ [] := by rintro rfl; simp_all
    have hdsinter : interComps ds ≠ [] :=
      interComps_ne_nil hdsne (fun c hc => (hds c hc).1)
    right
    by_cases hbcnil : bc = []
    · subst hbcnil
      refine ⟨interComps ds, hdsinter, ?_⟩
      have hbase : rootedJoin ([] : List Str) = ['/'] := rfl
      rw [hbase, if_pos rfl]
      simp [rootedJoin, joinComps]
    · have hbcinter : interComps bc ≠ [] :=
        interComps_ne_nil hbcnil (fun c hc => (hbc c hc).1)
    
      refine ⟨interComps ds, hdsinter, ?_⟩
      have hbase : rootedJoin bc ≠ ['/'] := by
        simp only [rootedJoin, joinComps, if_pos rfl]
        intro hcon
        exact hbcinter (by simpa using hcon)
      rw [if_neg hbase]
      simp [rootedJoin, joinComps, interComps_append hbcnil hdsne]

/-! ### Association list lemmas -/

theorem lookupL_insertL_self {α : Type} (l : List (Str × α)) (k : Str) (v : α) :
    lookupL (insertL l k v) k = some v := by
  induction l with
  | nil => simp [insertL, lookupL]
  | cons kv rest ih =>
    obtain ⟨k₀, v₀⟩ := kv
    simp only [insertL]
    by_cases h : k₀ = k
    · rw [if_pos h]; simp [lookupL]
    · rw [if_neg h]; simp only [lookupL, if_neg h, ih]

theorem lookupL_eraseL_self {α : Type} (l : List (Str × α)) (k : Str) :
    lookupL (eraseL l k) k = none := by
  induction l with
  | nil => simp [eraseL, lookupL]
  | cons kv rest ih =>
    obtain ⟨k₀, v₀⟩ := kv
    simp only [eraseL]
    by_cases h : k₀ = k
    · rw [if_pos h]; exact ih
    · rw [if_neg h]; simp only [lookupL, if_neg h, ih]

theorem cacheGet_hit {stat : Str → Option Int} {c : CacheL} {p content : Str}
    {tags : List Str} {m : Int} (hstat : stat p = some m) :
    cacheGet stat (cacheSet c p content tags m) p =
      (some ⟨content, tags, m⟩, cacheSet c p content tags m) := by
  simp only [cacheGet, cacheSet, lookupL_insertL_self, hstat]
  simp

/-- Claim C4: after `set(p, c, t, m)`, `get(p)` returns the entry
`(c, t)` whenever a fresh stat of `p` yields exactly `m`; and whenever
an entry is present but the stat fails or disagrees with the recorded
modification time, `get` reports a miss and the entry is purged from
the cache. -/
theorem cacheGet_contract :
    (∀ (stat : Str → Option Int) (c : CacheL) (p content : Str) (tags : List Str) (m : Int),
      stat p = some m →
        cacheGet stat (cacheSet c p content tags m) p =
          (some ⟨content, tags, m⟩, cacheSet c p content tags m)) ∧
    (∀ (stat : Str → Option Int) (c : CacheL) (p : Str) (e : CEntry),
      lookupL c p = some e → stat p ≠ some e.mtime →
        (cacheGet stat c p).1 = none ∧ lookupL (cacheGet stat c p).2 p = none) := by
  constructor
  · intro stat c p content tags m hstat
    exact cacheGet_hit hstat
  · intro stat c p e he hstat
    rcases h : stat p with _ | m
    · simp only [cacheGet, he, h, purgeIfSame, if_pos rfl, lookupL_eraseL_self]
      simp [lookupL_eraseL_self]
    · have hm : m ≠ e.mtime := fun hc => hstat (by rw [h, hc])
      simp only [cacheGet, he, h, if_neg hm, purgeIfSame, if_pos rfl, lookupL_eraseL_self]
      simp [lookupL_eraseL_self]

/-- Witness for C4: a concrete hit after `set` with matching stat, and
a concrete miss-and-purge with a disagreeing stat. -/
theorem cacheGet_contract_witness :
    cacheGet (fun _ => some 1) (cacheSet [] ['a'] ['x'] [['t']] 1) ['a'] =
      (some ⟨['x'], [['t']], 1⟩, cacheSet [] ['a'] ['x'] [['t']] 1) ∧
    ((cacheGet (fun _ => some 2) (cacheSet [] ['a'] ['x'] [['t']] 1) ['a']).1 = none ∧
      lookupL (cacheGet (fun _ => some 2) (cacheSet [] ['a'] ['x'] [['t']] 1) ['a']).2 ['a'] =
        none) :=
  ⟨cacheGet_contract.1 (fun _ => some 1) [] ['a'] ['x'] [['t']] 1 rfl,
   cacheGet_contract.2 (fun _ => some 2) (cacheSet [] ['a'] ['x'] [['t']] 1) ['a']
     ⟨['x'], [['t']], 1⟩ (by decide) (by decide)⟩

/-- Claim C6: the double-checked purge deletes the entry only when the
entry currently in the map still records the modification time observed
before the unlocked stat; hence an entry installed by a concurrent
`set` with a different (fresher) modification time survives the stale
invalidation decision. -/
theorem purge_discipline :
    (∀ (c : CacheL) (p : Str) (observed : Int),
      (∀ cur, lookupL c p = some cur → cur.mtime ≠ observed) →
        purgeIfSame c p observed = c) ∧
    (∀ (c : CacheL) (p content : Str) (tags : List Str) (m observed : Int),
      m ≠ observed →
        purgeIfSame (cacheSet c p content tags m) p observed = cacheSet c p content tags m ∧
        lookupL (purgeIfSame (cacheSet c p content tags m) p observed) p =
          some ⟨content, tags, m⟩) := by
  have h1 : ∀ (c : CacheL) (p : Str) (observed : Int),
      (∀ cur, lookupL c p = some cur → cur.mtime ≠ observed) →
        purgeIfSame c p observed = c := by
    intro c p observed h
    simp only [purgeIfSame]
    rcases hl : lookupL c p with _ | cur
    · rfl
    · show (if cur.mtime = observed then eraseL c p else c) = c
      rw [if_neg (h cur hl)]
  refine ⟨h1, ?_⟩
  intro c p content tags m observed hm
  have hpre : ∀ cur, lookupL (cacheSet c p content tags m) p = some cur →
      cur.mtime ≠ observed := by
    intro cur hcur
    rw [cacheSet, lookupL_insertL_self] at hcur
    injection hcur with hcur
    rw [← hcur]
    exact hm
  have hset := h1 (cacheSet c p content tags m) p observed hpre
  refine ⟨hset, ?_⟩
  rw [hset, cacheSet]
  exact lookupL_insertL_self c p ⟨content, tags, m⟩

/-- Witness for C6: a missing entry is not purged, and an entry set
with modification time 1 survives a purge decided against observed
time 0. -/
theorem purge_discipline_witness :
    purgeIfSame [] ['a'] 0 = [] ∧
    (purgeIfSame (cacheSet [] ['a'] ['x'] [] 1) ['a'] 0 = cacheSet [] ['a'] ['x'] [] 1 ∧
      lookupL (purgeIfSame (cacheSet [] ['a'] ['x'] [] 1) ['a'] 0) ['a'] =
        some ⟨['x'], [], 1⟩) :=
  ⟨purge_discipline.1 [] ['a'] 0 (by intro cur h; simp [lookupL] at h),
   purge_discipline.2 [] ['a'] ['x'] [] 1 0 (by decide)⟩

/-- Claim C5 counterexample: `Set` does not store an independent copy
of the tags slice.  Concretely: backing array 0 holds `["t"]`; after
`set("a", "x", slice 0, 1)`, a `get("a")` observes tags `["t"]`, but
after the caller mutates their own buffer (`slice 0`, index 0, to
`"u"`) the same `get` observes `["u"]` — the later get's observation
changed, which the claim says can never happen. -/
theorem cacheSet_no_copy_cex :
    ((cacheGetG (fun _ => some 1) (cacheSetG [] ['a'] ['x'] ⟨0⟩ 1) ['a']).1.map
        (fun e => readSlice [[['t']]] e.tags) = some [['t']]) ∧
    ((cacheGetG (fun _ => some 1) (cacheSetG [] ['a'] ['x'] ⟨0⟩ 1) ['a']).1.map
        (fun e => readSlice (writeSlice [[['t']]] ⟨0⟩ 0 ['u']) e.tags) = some [['u']]) := by
  decide

/-- Claim C5 (amended): `Set` stores the caller's `tags` slice by
reference and `Get` hands back the same reference (the struct copy
copies the slice header, not the backing array); consequently a later
`get` observes exactly the caller's backing array, mutations included.
Only the content string is immune, strings being immutable values. -/
theorem cacheSetG_shares_reference :
    ∀ (stat : Str → Option Int) (c : CacheG) (p content : Str) (s : GoSlice) (m : Int),
      stat p = some m →
        (cacheGetG stat (cacheSetG c p content s m) p).1 = some ⟨content, s, m⟩ ∧
        ∀ (h : Heap) (i : Nat) (v : Str),
          (cacheGetG stat (cacheSetG c p content s m) p).1.map
              (fun e => readSlice (writeSlice h s i v) e.tags) =
            some (readSlice (writeSlice h s i v) s) := by
  intro stat c p content s m hstat
  have h1 : (cacheGetG stat (cacheSetG c p content s m) p).1 = some ⟨content, s, m⟩ := by
    simp only [cacheGetG, cacheSetG, lookupL_insertL_self, hstat]
    simp
  exact ⟨h1, fun h i v => by rw [h1]; rfl⟩

/-- Witness for the amended C5 at concrete inputs. -/
theorem cacheSetG_shares_reference_witness :
    (cacheGetG (fun _ => some 1) (cacheSetG [] ['a'] ['x'] ⟨0⟩ 1) ['a']).1 =
      some ⟨['x'], ⟨0⟩, 1⟩ ∧
    ∀ (h : Heap) (i : Nat) (v : Str),
      (cacheGetG (fun _ => some 1) (cacheSetG [] ['a'] ['x'] ⟨0⟩ 1) ['a']).1.map
          (fun e => readSlice (writeSlice h ⟨0⟩ i v) e.tags) =
        some (readSlice (writeSlice h ⟨0⟩ i v) ⟨0⟩) :=
  cacheSetG_shares_reference (fun _ => some 1) [] ['a'] ['x'] ⟨0⟩ 1 rfl

theorem statOf_insertL (files : List (Str × FileRec)) (p : Str) (fr : FileRec) :
    statOf (insertL files p fr) p = some fr.mtime := by
  simp [statOf, lookupL_insertL_self]

/-- Claim C8: `Create` on an existing file fails with the
already-exists condition and changes nothing (so the content written by
the first `Create` is preserved, as the read-back conjunct shows);
`Update` on a missing file fails with `NoteNotFound` and changes
nothing; and after a successful `Create` or `Update`, `Read` of the
same path returns exactly the written content (and leaves the state
unchanged, the cache hitting). -/
theorem create_update_complementary :
    (∀ (basePath : Str) (st : VState) (p c₁ c₂ : Str) (st₁ : VState),
      vCreate basePath st p c₁ = (st₁, none) →
        vCreate basePath st₁ p c₂ = (st₁, some .alreadyExists)) ∧
    (∀ (basePath : Str) (st : VState) (p c full : Str),
      validatePath basePath p = .ok full → statOf st.files full = none →
        vUpdate basePath st p c = (st, some .noteNotFound)) ∧
    (∀ (basePath : Str) (st : VState) (p c : Str) (st₁ : VState),
      vCreate basePath st p c = (st₁, none) → vRead basePath st₁ p = (.ok c, st₁)) ∧
    (∀ (basePath : Str) (st : VState) (p c : Str) (st₁ : VState),
      vUpdate basePath st p c = (st₁, none) → vRead basePath st₁ p = (.ok c, st₁)) := by
  have hcreate : ∀ (basePath : Str) (st : VState) (p c : Str) (st₁ : VState),
      vCreate basePath st p c = (st₁, none) →
        ∃ full, validatePath basePath p = .ok full ∧ statOf st.files full = none ∧
          st₁ = ⟨insertL st.files full ⟨c, st.clock⟩,
                 cacheSet st.cache full c (extractTags c) st.clock, st.clock + 1⟩ := by
    intro basePath st p c st₁ h
    rcases hv : validatePath basePath p with e | full
    · simp [vCreate, hv] at h
    · rcases hs : statOf st.files full with _ | m
      · refine ⟨full, rfl, hs, ?_⟩
        simp only [vCreate, hv, hs] at h
        injection h with h1 h2
        exact h1.symm
      · simp [vCreate, hv, hs] at h
  have hupdate : ∀ (basePath : Str) (st : VState) (p c : Str) (st₁ : VState),
      vUpdate basePath st p c = (st₁, none) →
        ∃ full m, validatePath basePath p = .ok full ∧ statOf st.files full = some m ∧
          st₁ = ⟨insertL st.files full ⟨c, st.clock⟩,
                 cacheSet st.cache full c (extractTags c) st.clock, st.clock + 1⟩ := by
    intro basePath st p c st₁ h
    rcases hv : validatePath basePath p with e | full
    · simp [vUpdate, hv] at h
    · rcases hs : statOf st.files full with _ | m
      · simp [vUpdate, hv, hs] at h
      · refine ⟨full, m, rfl, hs, ?_⟩
        simp only [vUpdate, hv, hs] at h
        injection h with h1 h2
        exact h1.symm
  have hread : ∀ (basePath : Str) (st : VState) (p c full : Str),
      validatePath basePath p = .ok full →
        vRead basePath
          ⟨insertL st.files full ⟨c, st.clock⟩,
           cacheSet st.cache full c (extractTags c) st.clock, st.clock + 1⟩ p =
        (.ok c,
          ⟨insertL st.files full ⟨c, st.clock⟩,
           cacheSet st.cache full c (extractTags c) st.clock, st.clock + 1⟩) := by
    intro basePath st p c full hv
    have hfiles : lookupL (insertL st.files full ⟨c, st.clock⟩) full =
        some ⟨c, st.clock⟩ := lookupL_insertL_self _ _ _
    have hcache :
        cacheGet (statOf (insertL st.files full ⟨c, st.clock⟩))
          (cacheSet st.cache full c (extractTags c) st.clock) full =
        (some ⟨c, extractTags c, st.clock⟩,
          cacheSet st.cache full c (extractTags c) st.clock) := by
      exact cacheGet_hit (statOf_insertL st.files full ⟨c, st.clock⟩)
    simp only [vRead, hv, hfiles, hcache]
  refine ⟨?_, ?_, ?_, ?_⟩
  · intro basePath st p c₁ c₂ st₁ h
    obtain ⟨full, hv, hs, rfl⟩ := hcreate basePath st p c₁ st₁ h
    have hstat : statOf (insertL st.files full ⟨c₁, st.clock⟩) full = some st.clock :=
      statOf_insertL st.files full ⟨c₁, st.clock⟩
    simp only [vCreate, hv, hstat]
  · intro basePath st p c full hv hs
    simp only [vUpdate, hv, hs]
  · intro basePath st p c st₁ h
    obtain ⟨full, hv, hs, rfl⟩ := hcreate basePath st p c st₁ h
    exact hread basePath st p c full hv
  · intro basePath st p c st₁ h
    obtain ⟨full, m, hv, hs, rfl⟩ := hupdate basePath st p c st₁ h
    exact hread basePath st p c full hv

/-- Witness for C8: over root `/v`, `Create("a.md","x")` then
`Create("a.md","y")` fails already-exists with the state (hence the
content `"x"`) unchanged; `Update` of a missing note fails
`NoteNotFound`; `Read` after the create returns `"x"`, and after a
subsequent successful `Update` to `"w"` returns `"w"`. -/
theorem create_update_complementary_witness :
    vCreate "/v".data ⟨[("/v/a.md".data, ⟨"x".data, 0⟩)],
        [("/v/a.md".data, ⟨"x".data, [], 0⟩)], 1⟩ "a.md".data "y".data =
      (⟨[("/v/a.md".data, ⟨"x".data, 0⟩)], [("/v/a.md".data, ⟨"x".data, [], 0⟩)], 1⟩,
        some .alreadyExists) ∧
    vUpdate "/v".data ⟨[], [], 0⟩ "a.md".data "z".data =
      (⟨[], [], 0⟩, some .noteNotFound) ∧
    vRead "/v".data ⟨[("/v/a.md".data, ⟨"x".data, 0⟩)],
        [("/v/a.md".data, ⟨"x".data, [], 0⟩)], 1⟩ "a.md".data =
      (.ok "x".data,
        ⟨[("/v/a.md".data, ⟨"x".data, 0⟩)], [("/v/a.md".data, ⟨"x".data, [], 0⟩)], 1⟩) ∧
    vRead "/v".data ⟨[("/v/a.md".data, ⟨"w".data, 1⟩)],
        [("/v/a.md".data, ⟨"w".data, [], 1⟩)], 2⟩ "a.md".data =
      (.ok "w".data,
        ⟨[("/v/a.md".data, ⟨"w".data, 1⟩)], [("/v/a.md".data, ⟨"w".data, [], 1⟩)], 2⟩) :=
  ⟨create_update_complementary.1 "/v".data ⟨[], [], 0⟩ "a.md".data "x".data "y".data
      ⟨[("/v/a.md".data, ⟨"x".data, 0⟩)], [("/v/a.md".data, ⟨"x".data, [], 0⟩)], 1⟩
      (by decide),
   create_update_complementary.2.1 "/v".data ⟨[], [], 0⟩ "a.md".data "z".data
      "/v/a.md".data (by decide) rfl,
   create_update_complementary.2.2.1 "/v".data ⟨[], [], 0⟩ "a.md".data "x".data
      ⟨[("/v/a.md".data, ⟨"x".data, 0⟩)], [("/v/a.md".data, ⟨"x".data, [], 0⟩)], 1⟩
      (by decide),
   create_update_complementary.2.2.2 "/v".data
      ⟨[("/v/a.md".data, ⟨"x".data, 0⟩)], [("/v/a.md".data, ⟨"x".data, [], 0⟩)], 1⟩
      "a.md".data "w".data
      ⟨[("/v/a.md".data, ⟨"w".data, 1⟩)], [("/v/a.md".data, ⟨"w".data, [], 1⟩)], 2⟩
      (by decide)⟩

/-! ### Tag extraction lemmas -/

theorem takeWhile_run {xs ys : Str} (hx : ∀ c ∈ xs, wordChar c = true)
    (hy : wordChar (ys.headD ' ') = false) :
    (xs ++ ys).takeWhile wordChar = xs ∧ (xs ++ ys).dropWhile wordChar = ys := by
  induction xs with
  | nil =>
    simp only [List.nil_append]
    cases ys with
    | nil => simp
    | cons y ys' =>
      simp only [List.headD_cons] at hy
      constructor
      · simp [List.takeWhile_cons, hy]
      · simp [List.dropWhile_cons, hy]
  | cons x xs' ih =>
    have hx0 : wordChar x = true := hx x (by simp)
    obtain ⟨h1, h2⟩ := ih (fun c hc => hx c (by simp [hc]))
    constructor
    · simp [List.takeWhile_cons, hx0, h1]
    · simp [List.dropWhile_cons, hx0, h2]

theorem wordChar_headD_dropWhile (l : Str) :
    wordChar ((l.dropWhile wordChar).headD ' ') = false := by
  induction l with
  | nil => decide
  | cons c cs ih =>
    by_cases h : wordChar c = true
    · simpa [List.dropWhile_cons, h] using ih
    · simp only [List.dropWhile_cons]
      rw [if_neg (by simp [h])]
      simpa [List.headD_cons] using h

theorem isTagOcc_mem_findTags {s run : Str} (h : isTagOcc s run) : run ∈ findTags s := by
  obtain ⟨hne, hword, pre, post, rfl, hpost⟩ := h
  induction pre with
  | nil =>
    have hhead : wordChar ((run ++ post).headD ' ') = true := by
      cases run with
      | nil => exact absurd rfl hne
      | cons r rs => simpa using hword r (by simp)
    simp only [List.nil_append, List.cons_append]
    rw [findTags, if_pos ⟨rfl, hhead⟩, (takeWhile_run hword hpost).1]
    exact List.mem_cons_self _ _
  | cons a pre' ih =>
    simp only [List.cons_append, findTags]
    split
    · exact List.mem_cons_of_mem _ ih
    · exact ih

theorem mem_findTags_isTagOcc {s run : Str} (h : run ∈ findTags s) : isTagOcc s run := by
  induction s with
  | nil => simp [findTags] at h
  | cons a rest ih =>
    by_cases hc : a = '#' ∧ wordChar (rest.headD ' ') = true
    · rw [findTags, if_pos hc] at h
      rcases List.mem_cons.1 h with rfl | h
      · refine ⟨?_, ?_, [], rest.dropWhile wordChar, ?_, wordChar_headD_dropWhile rest⟩
        · cases rest with
          | nil => exact absurd hc.2 (by decide)
          | cons r rs =>
            simp only [List.headD_cons] at hc
            simp [List.takeWhile_cons, hc.2]
        · exact fun c hcmem => List.mem_takeWhile_imp hcmem
        · rw [hc.1]
          simp [List.takeWhile_append_dropWhile]
      · obtain ⟨hne, hword, pre, post, heq, hpost⟩ := ih h
        exact ⟨hne, hword, a :: pre, post, by simp [heq], hpost⟩
    · rw [findTags, if_neg hc] at h
      obtain ⟨hne, hword, pre, post, heq, hpost⟩ := ih h
      exact ⟨hne, hword, a :: pre, post, by simp [heq], hpost⟩

/-- Claim C3: membership in `ExtractTags content` is exactly "the
lowercasing of some maximal word-character run immediately following a
`'#'`" (so punctuation such as a dash ends a tag early, and mixed-case
duplicates collapse); the result never contains duplicates; the empty
string yields the empty collection; and concretely a dashed tag stops
at the dash while the three casings of `#tag` collapse to one lowercase
entry. -/
theorem extractTags_spec :
    (∀ s t, t ∈ extractTags s ↔ ∃ run, isTagOcc s run ∧ t = run.map Char.toLower) ∧
    (∀ s, (extractTags s).Nodup) ∧
    extractTags [] = [] ∧
    extractTags "#tag-name".data = ["tag".data] ∧
    extractTags "#Tag #TAG #tag".data = ["tag".data] := by
  refine ⟨?_, fun s => List.nodup_dedup _, rfl, by decide, by decide⟩
  intro s t
  simp only [extractTags, List.mem_dedup, List.mem_map]
  constructor
  · rintro ⟨run, hmem, rfl⟩
    exact ⟨run, mem_findTags_isTagOcc hmem, rfl⟩
  · rintro ⟨run, hocc, rfl⟩
    exact ⟨run, isTagOcc_mem_findTags hocc, rfl⟩

/-! ### Walk lemmas -/

theorem append_cons_ne (sp : Str) (c : Char) (n : Str) : sp ++ c :: n ≠ sp := by
  intro h
  have := congrArg List.length h
  simp only [List.length_append, List.length_cons] at this
  omega

mutual
theorem visitNode_recursive (sp path : Str) (t : FTree) :
    visitNode true sp path t = mdFilesUnder path t := by
  cases t with
  | file n r c => rfl
  | dir n r ch =>
    simp only [visitNode, mdFilesUnder]
    by_cases hr : r = true
    · rw [if_pos hr, if_pos hr, if_neg (by simp), visitForest_recursive sp path ch]
    · rw [if_neg hr, if_neg hr]

theorem visitForest_recursive (sp path : Str) (ch : FForest) :
    visitForest true sp path ch = mdFilesUnderF path ch := by
  cases ch with
  | nil => rfl
  | cons t rest =>
    simp only [visitForest, mdFilesUnderF]
    rw [visitNode_recursive sp (path ++ '/' :: t.nodeName) t,
      visitForest_recursive sp path rest]
end

theorem visitForest_nonrecursive (sp : Str) (ch : FForest) :
    visitForest false sp sp ch = directFiles sp ch := by
  cases ch with
  | nil => rfl
  | cons t rest =>
    have ih := visitForest_nonrecursive sp rest
    cases t with
    | file n r c =>
      simp only [visitForest, directFiles, visitNode, FTree.nodeName, ih]
    | dir n r ch₂ =>
      simp only [visitForest, directFiles, visitNode, FTree.nodeName, ih]
      have hne : sp ++ '/' :: n ≠ sp := append_cons_ne sp '/' n
      by_cases hr : r = true
      · rw [if_pos hr, if_pos ⟨trivial, hne⟩]
      · rw [if_neg hr]

mutual
theorem visitNode_extends {r : Bool} {sp path q c : Str} {t : FTree}
    (h : (q, c) ∈ visitNode r sp path t) : extendsDir path q := by
  cases t with
  | file n rd content =>
    simp only [visitNode] at h
    by_cases hrd : rd = true
    · rw [if_pos hrd] at h
      by_cases hmd : strHasSuf path mdSuffix = true
      · rw [if_pos hmd] at h
        simp only [List.mem_singleton, Prod.mk.injEq] at h
        exact Or.inl h.1
      · rw [if_neg hmd] at h
        simp at h
    · rw [if_neg hrd] at h
      simp at h
  | dir n rd ch =>
    simp only [visitNode] at h
    by_cases hrd : rd = true
    · rw [if_pos hrd] at h
      split at h
      · simp at h
      · exact visitForest_extends h
    · rw [if_neg hrd] at h
      simp at h

theorem visitForest_extends {r : Bool} {sp path q c : Str} {ch : FForest}
    (h : (q, c) ∈ visitForest r sp path ch) : extendsDir path q := by
  cases ch with
  | nil => simp [visitForest] at h
  | cons t rest =>
    simp only [visitForest, List.mem_append] at h
    rcases h with h | h
    · rcases visitNode_extends h with h₁ | ⟨rest₂, h₁⟩
      · exact Or.inr ⟨t.nodeName, h₁⟩
      · refine Or.inr ⟨t.nodeName ++ '/' :: rest₂, ?_⟩
        rw [h₁]
        simp
    · exact visitForest_extends h
end

mutual
theorem mdFilesUnder_extends {path q c : Str} {t : FTree}
    (h : (q, c) ∈ mdFilesUnder path t) : extendsDir path q := by
  cases t with
  | file n rd content =>
    simp only [mdFilesUnder] at h
    by_cases hrd : rd = true
    · rw [if_pos hrd] at h
      by_cases hmd : strHasSuf path mdSuffix = true
      · rw [if_pos hmd] at h
        simp only [List.mem_singleton, Prod.mk.injEq] at h
        exact Or.inl h.1
      · rw [if_neg hmd] at h
        simp at h
    · rw [if_neg hrd] at h
      simp at h
  | dir n rd ch =>
    simp only [mdFilesUnder] at h
    by_cases hrd : rd = true
    · rw [if_pos hrd] at h
      exact mdFilesUnderF_extends h
    · rw [if_neg hrd] at h
      simp at h

theorem mdFilesUnderF_extends {path q c : Str} {ch : FForest}
    (h : (q, c) ∈ mdFilesUnderF path ch) : extendsDir path q := by
  cases ch with
  | nil => simp [mdFilesUnderF] at h
  | cons t rest =>
    simp only [mdFilesUnderF, List.mem_append] at h
    rcases h with h | h
    · rcases mdFilesUnder_extends h with h₁ | ⟨rest₂, h₁⟩
      · exact Or.inr ⟨t.nodeName, h₁⟩
      · refine Or.inr ⟨t.nodeName ++ '/' :: rest₂, ?_⟩
        rw [h₁]
        simp
    · exact mdFilesUnderF_extends h
end

mutual
theorem visitNode_md {r : Bool} {sp path q c : Str} {t : FTree}
    (h : (q, c) ∈ visitNode r sp path t) : strHasSuf q mdSuffix = true := by
  cases t with
  | file n rd content =>
    simp only [visitNode] at h
    by_cases hrd : rd = true
    · rw [if_pos hrd] at h
      by_cases hmd : strHasSuf path mdSuffix = true
      · rw [if_pos hmd] at h
        simp only [List.mem_singleton, Prod.mk.injEq] at h
        rw [h.1]
        exact hmd
      · rw [if_neg hmd] at h
        simp at h
    · rw [if_neg hrd] at h
      simp at h
  | dir n rd ch =>
    simp only [visitNode] at h
    by_cases hrd : rd = true
    · rw [if_pos hrd] at h
      split at h
      · simp at h
      · exact visitForest_md h
    · rw [if_neg hrd] at h
      simp at h

theorem visitForest_md {r : Bool} {sp path q c : Str} {ch : FForest}
    (h : (q, c) ∈ visitForest r sp path ch) : strHasSuf q mdSuffix = true := by
  cases ch with
  | nil => simp [visitForest] at h
  | cons t rest =>
    simp only [visitForest, List.mem_append] at h
    rcases h with h | h
    · exact visitNode_md h
    · exact visitForest_md h
end

/-- Claim C9: with `recursive = true` the walk of `List` collects
exactly the recursively reachable markdown files (no directory is
pruned); with `recursive = false` over a readable starting directory it
returns exactly that directory's own readable markdown files (every
subdirectory is pruned); unreadable files and directories contribute
nothing instead of failing the walk; and every collected path ends in
the markdown suffix. -/
theorem list_traversal_semantics :
    (∀ (sp path : Str) (t : FTree), visitNode true sp path t = mdFilesUnder path t) ∧
    (∀ (sp n : Str) (ch : FForest),
      visitNode false sp sp (.dir n true ch) = directFiles sp ch) ∧
    (∀ (r : Bool) (sp path n content : Str),
      visitNode r sp path (.file n false content) = []) ∧
    (∀ (r : Bool) (sp path n : Str) (ch : FForest),
      visitNode r sp path (.dir n false ch) = []) ∧
    (∀ (r : Bool) (sp path q c : Str) (t : FTree),
      (q, c) ∈ visitNode r sp path t → strHasSuf q mdSuffix = true) := by
  refine ⟨visitNode_recursive, ?_, ?_, ?_, fun r sp path q c t h => visitNode_md h⟩
  · intro sp n ch
    simp only [visitNode]
    rw [if_pos trivial, if_neg (by simp), visitForest_nonrecursive]
  · intro r sp path n content
    simp [visitNode]
  · intro r sp path n ch
    simp [visitNode]

/-- Witness for C9 over the spec's scenario tree: root `/v` holding
`a.md` and `sub/b.md`.  Non-recursive listing returns only the
root-level file, recursive listing both; an unreadable file vanishes;
and the collected path `/v/a.md` ends in `".md"`. -/
theorem list_traversal_semantics_witness :
    visitNode true "/v".data "/v".data
        (.dir "v".data true (.cons (.file "a.md".data true "ca".data)
          (.cons (.dir "sub".data true (.cons (.file "b.md".data true "cb".data) .nil)) .nil))) =
      mdFilesUnder "/v".data
        (.dir "v".data true (.cons (.file "a.md".data true "ca".data)
          (.cons (.dir "sub".data true (.cons (.file "b.md".data true "cb".data) .nil)) .nil))) ∧
    visitNode false "/v".data "/v".data
        (.dir "v".data true (.cons (.file "a.md".data true "ca".data)
          (.cons (.dir "sub".data true (.cons (.file "b.md".data true "cb".data) .nil)) .nil))) =
      directFiles "/v".data
        (.cons (.file "a.md".data true "ca".data)
          (.cons (.dir "sub".data true (.cons (.file "b.md".data true "cb".data) .nil)) .nil)) ∧
    visitNode true "/v".data "/v/x.md".data (.file "x.md".data false "cx".data) = [] ∧
    strHasSuf "/v/a.md".data mdSuffix = true :=
  ⟨list_traversal_semantics.1 "/v".data "/v".data _,
   list_traversal_semantics.2.1 "/v".data "v".data _,
   list_traversal_semantics.2.2.1 true "/v".data "/v/x.md".data "x.md".data "cx".data,
   list_traversal_semantics.2.2.2.2 false "/v".data "/v".data "/v/a.md".data "ca".data
     (.dir "v".data true (.cons (.file "a.md".data true "ca".data)
       (.cons (.dir "sub".data true (.cons (.file "b.md".data true "cb".data) .nil)) .nil)))
     (by decide)⟩

/-- Claim C10: whenever the subpath passes the traversal check but the
walk root cannot be statted (it does not exist or is inaccessible),
both `List` and `Search` succeed with an empty result instead of
failing — the root's stat error reaches the walk function, which
swallows it like any other unreadable entry. -/
theorem missing_root_empty_success :
    ∀ (basePath subpath sp : Str) (recursive : Bool) (lookupT : Str → Option FTree)
      (queryMatch : Option (Str → Bool)) (filterTags : List Str),
      searchPathOf basePath subpath = .ok sp → lookupT sp = none →
        goList basePath subpath recursive lookupT = .ok [] ∧
        goSearch basePath subpath queryMatch filterTags lookupT = .ok [] := by
  intro bp sub sp recursive lookupT qm ft hsp hnone
  constructor
  · simp only [goList, hsp, hnone]
  · simp only [goSearch, hsp, hnone]

/-- Witness for C10: subpath `a` below root `/v` passes the traversal
check, no filesystem object exists there, and both operations return
an empty success. -/
theorem missing_root_empty_success_witness :
    goList "/v".data "a".data true (fun _ => none) = .ok [] ∧
    goSearch "/v".data "a".data none [] (fun _ => none) = .ok [] :=
  missing_root_empty_success "/v".data "a".data "/v/a".data true (fun _ => none) none []
    (by decide) rfl

theorem searchKeep_tail {bp p c : Str} {lowered : List Str} {n : NoteInfo} :
    ((if lowered.isEmpty = false then
        if ((extractTags c).any fun t₀ => lowered.contains t₀) = true then
          some (⟨relOf bp p, extractTags c⟩ : NoteInfo)
        else none
      else some ⟨relOf bp p, extractTags c⟩) = some n) ↔
      (n = ⟨relOf bp p, extractTags c⟩ ∧
        (lowered ≠ [] → ∃ tg ∈ extractTags c, tg ∈ lowered)) := by
  have hany : (((extractTags c).any fun t₀ => lowered.contains t₀) = true) ↔
      ∃ tg ∈ extractTags c, tg ∈ lowered := by
    rw [List.any_eq_true]
    constructor
    · rintro ⟨tg, htg, hc⟩
      exact ⟨tg, htg, List.elem_iff.1 hc⟩
    · rintro ⟨tg, htg, hc⟩
      exact ⟨tg, htg, List.elem_iff.2 hc⟩
  by_cases hemp : lowered.isEmpty = false
  · rw [if_pos hemp]
    have hlow : lowered ≠ [] := by
      intro hnil
      rw [hnil] at hemp
      simp [List.isEmpty] at hemp
    by_cases ha : ((extractTags c).any fun t₀ => lowered.contains t₀) = true
    · rw [if_pos ha]
      simp only [Option.some.injEq]
      constructor
      · rintro rfl
        exact ⟨rfl, fun _ => hany.1 ha⟩
      · rintro ⟨rfl, _⟩
        rfl
    · rw [if_neg ha]
      constructor
      · intro hcon
        exact absurd hcon (by simp)
      · rintro ⟨rfl, htag⟩
        exact absurd (hany.2 (htag hlow)) ha
  · rw [if_neg hemp]
    have hlow : lowered = [] := by
      rcases lowered with _ | ⟨x, xs⟩
      · rfl
      · exact absurd (by simp [List.isEmpty]) hemp
    simp only [Option.some.injEq]
    constructor
    · rintro rfl
      exact ⟨rfl, fun habs => absurd hlow habs⟩
    · rintro ⟨rfl, _⟩
      rfl

theorem searchKeep_eq_some {bp : Str} {qm : Option (Str → Bool)} {lowered : List Str}
    {p c : Str} {n : NoteInfo} :
    searchKeep bp qm lowered (p, c) = some n ↔
      n = ⟨relOf bp p, extractTags c⟩ ∧
      (∀ f, qm = some f → f c = true) ∧
      (lowered ≠ [] → ∃ tg ∈ extractTags c, tg ∈ lowered) := by
  rcases qm with _ | f
  · simp only [searchKeep]
    rw [if_pos trivial, searchKeep_tail]
    constructor
    · rintro ⟨h1, h2⟩
      exact ⟨h1, fun f₀ hf₀ => absurd hf₀ (by simp), h2⟩
    · rintro ⟨h1, _, h2⟩
      exact ⟨h1, h2⟩
  · simp only [searchKeep]
    by_cases hf : f c = true
    · rw [if_pos hf, searchKeep_tail]
      constructor
      · rintro ⟨h1, h2⟩
        refine ⟨h1, ?_, h2⟩
        rintro f₀ hf₀
        injection hf₀ with hf₀
        rw [← hf₀]
        exact hf
      · rintro ⟨h1, _, h2⟩
        exact ⟨h1, h2⟩
    · rw [if_neg hf]
      constructor
      · intro hcon
        exact absurd hcon (by simp)
      · rintro ⟨_, hq2, _⟩
        exact absurd (hq2 f rfl) hf

/-- Claim C7: a markdown file collected below the search subpath
appears in the result exactly when its content passes the query filter
(no constraint when the query is absent) AND — when a non-empty tags
filter is given — at least one of the note's (lowercase) tags occurs in
the lowercased filter; an empty tags filter imposes no constraint, so
with neither filter every collected markdown file is returned. -/
theorem search_semantics :
    ∀ (basePath subpath sp : Str) (queryMatch : Option (Str → Bool)) (filterTags : List Str)
      (lookupT : Str → Option FTree) (t : FTree) (res : List NoteInfo) (n : NoteInfo),
      searchPathOf basePath subpath = .ok sp → lookupT sp = some t →
      goSearch basePath subpath queryMatch filterTags lookupT = .ok res →
      (n ∈ res ↔ ∃ p c, (p, c) ∈ mdFilesUnder sp t ∧
        n = ⟨relOf basePath p, extractTags c⟩ ∧
        (∀ f, queryMatch = some f → f c = true) ∧
        (filterTags ≠ [] → ∃ tg ∈ extractTags c,
          tg ∈ filterTags.map (List.map Char.toLower))) := by
  intro bp sub sp qm ft lookupT t res n hsp hl hres
  simp only [goSearch, hsp, hl, Except.ok.injEq] at hres
  subst hres
  rw [List.mem_filterMap]
  constructor
  · rintro ⟨⟨p, c⟩, hmem, hF⟩
    obtain ⟨rfl, hq2, ht2⟩ := searchKeep_eq_some.1 hF
    refine ⟨p, c, hmem, rfl, hq2, ?_⟩
    intro hne
    refine ht2 ?_
    simpa using hne
  · rintro ⟨p, c, hmem, rfl, hq2, ht2⟩
    refine ⟨(p, c), hmem, searchKeep_eq_some.2 ⟨rfl, hq2, ?_⟩⟩
    intro hne
    refine ht2 ?_
    simpa using hne

/-- Witness for C7 on the spec's scenario: notes tagged `{tag1,tag2}`
and `{tag2,tag3}` under root `/v`; with filter `[tag1]` the inclusion
equivalence is instantiated for the first note, with filter
`[tag2,tag3]` for the second. -/
theorem search_semantics_witness :
    ((⟨"n1.md".data, ["tag1".data, "tag2".data]⟩ : NoteInfo) ∈
        [(⟨"n1.md".data, ["tag1".data, "tag2".data]⟩ : NoteInfo)] ↔
      ∃ p c, (p, c) ∈ mdFilesUnder "/v".data
          (.dir "v".data true (.cons (.file "n1.md".data true "#tag1 #tag2".data)
            (.cons (.file "n2.md".data true "#tag2 #tag3".data) .nil))) ∧
        (⟨"n1.md".data, ["tag1".data, "tag2".data]⟩ : NoteInfo) =
          ⟨relOf "/v".data p, extractTags c⟩ ∧
        (∀ f, (none : Option (Str → Bool)) = some f → f c = true) ∧
        (["tag1".data] ≠ [] → ∃ tg ∈ extractTags c,
          tg ∈ ["tag1".data].map (List.map Char.toLower))) ∧
    ((⟨"n2.md".data, ["tag2".data, "tag3".data]⟩ : NoteInfo) ∈
        [(⟨"n1.md".data, ["tag1".data, "tag2".data]⟩ : NoteInfo),
         ⟨"n2.md".data, ["tag2".data, "tag3".data]⟩] ↔
      ∃ p c, (p, c) ∈ mdFilesUnder "/v".data
          (.dir "v".data true (.cons (.file "n1.md".data true "#tag1 #tag2".data)
            (.cons (.file "n2.md".data true "#tag2 #tag3".data) .nil))) ∧
        (⟨"n2.md".data, ["tag2".data, "tag3".data]⟩ : NoteInfo) =
          ⟨relOf "/v".data p, extractTags c⟩ ∧
        (∀ f, (none : Option (Str → Bool)) = some f → f c = true) ∧
        (["tag2".data, "tag3".data] ≠ [] → ∃ tg ∈ extractTags c,
          tg ∈ ["tag2".data, "tag3".data].map (List.map Char.toLower))) :=
  ⟨search_semantics "/v".data [] "/v".data none ["tag1".data]
      (fun _ => some (.dir "v".data true (.cons (.file "n1.md".data true "#tag1 #tag2".data)
        (.cons (.file "n2.md".data true "#tag2 #tag3".data) .nil))))
      (.dir "v".data true (.cons (.file "n1.md".data true "#tag1 #tag2".data)
        (.cons (.file "n2.md".data true "#tag2 #tag3".data) .nil)))
      [⟨"n1.md".data, ["tag1".data, "tag2".data]⟩]
      ⟨"n1.md".data, ["tag1".data, "tag2".data]⟩ (by decide) rfl (by decide),
   search_semantics "/v".data [] "/v".data none ["tag2".data, "tag3".data]
      (fun _ => some (.dir "v".data true (.cons (.file "n1.md".data true "#tag1 #tag2".data)
        (.cons (.file "n2.md".data true "#tag2 #tag3".data) .nil))))
      (.dir "v".data true (.cons (.file "n1.md".data true "#tag1 #tag2".data)
        (.cons (.file "n2.md".data true "#tag2 #tag3".data) .nil)))
      [⟨"n1.md".data, ["tag1".data, "tag2".data]⟩, ⟨"n2.md".data, ["tag2".data, "tag3".data]⟩]
      ⟨"n2.md".data, ["tag2".data, "tag3".data]⟩ (by decide) rfl (by decide)⟩

theorem validatePath_empty (base : Str) : validatePath base [] = .error .invalidPath := by
  unfold validatePath
  rw [if_pos rfl]

theorem validatePath_dotdot {base p : Str} (hp : p ≠ [])
    (h : strContains (goClean p) dotdot = true) :
    validatePath base p = .error .pathTraversal := by
  unfold validatePath
  rw [if_neg hp, if_pos h]

theorem validatePath_clean {bc : List Str} {p : Str} (hbc : goodComps bc) (hp : p ≠ [])
    (h : strContains (goClean p) dotdot = false) :
    validatePath (rootedJoin bc) p =
      (if strHasSuf (goJoin (rootedJoin bc) (goClean p)) mdSuffix = true then
        .ok (goJoin (rootedJoin bc) (goClean p))
      else .error .notMarkdown) := by
  obtain ⟨ds, hds, hjoin⟩ := goJoin_base bc hbc (goClean p) h
  unfold validatePath
  rw [if_neg hp, if_neg (by rw [h]; exact Bool.false_ne_true)]
  rw [hjoin, if_pos (rootedJoin_append_pre bc ds hbc hds), ← hjoin]

theorem validatePath_eq {bc : List Str} {p : Str} (hbc : goodComps bc) :
    validatePath (rootedJoin bc) p =
      (if p = [] then .error .invalidPath
       else if strContains (goClean p) dotdot = true then .error .pathTraversal
       else if strHasSuf (goJoin (rootedJoin bc) (goClean p)) mdSuffix = true then
         .ok (goJoin (rootedJoin bc) (goClean p))
       else .error .notMarkdown) := by
  by_cases hp : p = []
  · rw [if_pos hp, hp]
    exact validatePath_empty _
  · rw [if_neg hp]
    by_cases hdd : strContains (goClean p) dotdot = true
    · rw [if_pos hdd]
      exact validatePath_dotdot hp hdd
    · have hdd₂ : strContains (goClean p) dotdot = false := by
        cases h : strContains (goClean p) dotdot
        · rfl
        · exact absurd h hdd
      rw [if_neg hdd]
      exact validatePath_clean hbc hp hdd₂

/-- Claim C2 (amended): over a canonicalized vault root, path
validation fails with `InvalidPath` exactly on the empty input; it
fails with `PathTraversal` exactly when the cleaned input contains the
two-character substring `".."` — a textual test that also fires on
names such as `a..b.md` containing no parent-directory segment, and the
only traversal exit, the joined path always keeping the root as a
prefix; and every other non-empty input is rejected as `NotMarkdown`
exactly when its joined absolute path does not end in `".md"`. -/
theorem validatePath_classification :
    ∀ (bc : List Str) (p : Str), goodComps bc →
      (validatePath (rootedJoin bc) p = .error .invalidPath ↔ p = []) ∧
      (validatePath (rootedJoin bc) p = .error .pathTraversal ↔
        (p ≠ [] ∧ strContains (goClean p) dotdot = true)) ∧
      (validatePath (rootedJoin bc) p = .error .notMarkdown ↔
        (p ≠ [] ∧ strContains (goClean p) dotdot = false ∧
          strHasSuf (goJoin (rootedJoin bc) (goClean p)) mdSuffix = false)) := by
  intro bc p hbc
  rw [validatePath_eq hbc]
  split_ifs with h1 h2 h3
  · simp [h1]
  · simp [h1, h2]
  · simp [h1, h2, h3]
  · simp only [Bool.not_eq_true] at h2 h3
    simp [h1, h2, h3]

/-- Witness for C2: over root `/v`, the classification applied at the
concrete inputs `""` (InvalidPath), `"../x.md"` (PathTraversal) and
`"a.txt"` (NotMarkdown). -/
theorem validatePath_classification_witness :
    (validatePath (rootedJoin ["v".data]) [] = .error .invalidPath ↔ ([] : Str) = []) ∧
    (validatePath (rootedJoin ["v".data]) "../x.md".data = .error .pathTraversal ↔
      ("../x.md".data ≠ [] ∧ strContains (goClean "../x.md".data) dotdot = true)) ∧
    (validatePath (rootedJoin ["v".data]) "a.txt".data = .error .notMarkdown ↔
      ("a.txt".data ≠ [] ∧ strContains (goClean "a.txt".data) dotdot = false ∧
        strHasSuf (goJoin (rootedJoin ["v".data]) (goClean "a.txt".data)) mdSuffix = false)) :=
  ⟨(validatePath_classification ["v".data] [] (by decide)).1,
   (validatePath_classification ["v".data] "../x.md".data (by decide)).2.1,
   (validatePath_classification ["v".data] "a.txt".data (by decide)).2.2⟩

/-- Claim C2 counterexample: with root `/v` the input `a..b.md` fails
with `PathTraversal`, yet its cleaned form contains no parent-directory
segment and its joined absolute path lies strictly under the root, so
the claimed equivalence ("PathTraversal iff a parent-directory segment
remains or the joined path escapes the root") is false at this input. -/
theorem validatePath_classification_cex :
    validatePath "/v".data "a..b.md".data = .error .pathTraversal ∧
    hasParentSeg (goClean "a..b.md".data) = false ∧
    strictlyUnder "/v".data (goJoin "/v".data (goClean "a..b.md".data)) :=
  ⟨by decide, by decide, ⟨"a..b.md".data, by decide, by decide⟩⟩

/-- Claim C1 (amended): over a canonicalized vault root (a rooted path
of well-formed components), every path accepted by `validatePath`
resolves to a path ending in `".md"` that lies at or below the root —
strictly below it whenever the root's own path does not end in `".md"`
(a root whose final component ends in `".md"` admits inputs such as
`"."` that resolve to the root itself); the directory in which `List`
and `Search` walk lies at or below the root; and a walk started at `sp`
only visits `sp` itself and paths extending `sp` past a separator — so
no operation touches a filesystem path outside the root. -/
theorem validatePath_containment :
    (∀ (bc : List Str) (p full : Str), goodComps bc →
      validatePath (rootedJoin bc) p = .ok full →
        strHasSuf full mdSuffix = true ∧ underOrEq (rootedJoin bc) full ∧
        (strHasSuf (rootedJoin bc) mdSuffix = false → strictlyUnder (rootedJoin bc) full)) ∧
    (∀ (bc : List Str) (sub sp : Str), goodComps bc →
      searchPathOf (rootedJoin bc) sub = .ok sp → underOrEq (rootedJoin bc) sp) ∧
    (∀ (r : Bool) (sp q c : Str) (t : FTree),
      (q, c) ∈ visitNode r sp sp t → extendsDir sp q) ∧
    (∀ (sp q c : Str) (t : FTree),
      (q, c) ∈ mdFilesUnder sp t → extendsDir sp q) := by
  refine ⟨?_, ?_, fun r sp q c t h => visitNode_extends h,
    fun sp q c t h => mdFilesUnder_extends h⟩
  · intro bc p full hbc hok
    rw [validatePath_eq hbc] at hok
    by_cases hp : p = []
    · rw [if_pos hp] at hok
      cases hok
    · rw [if_neg hp] at hok
      by_cases hdd : strContains (goClean p) dotdot = true
      · rw [if_pos hdd] at hok
        cases hok
      · have hdd₂ : strContains (goClean p) dotdot = false := by
          cases h : strContains (goClean p) dotdot
          · rfl
          · exact absurd h hdd
        rw [if_neg hdd] at hok
        obtain ⟨ds, hds, hjoin⟩ := goJoin_base bc hbc (goClean p) hdd₂
        rw [hjoin] at hok
        by_cases hsuf : strHasSuf (rootedJoin (bc ++ ds)) mdSuffix = true
        · rw [if_pos hsuf] at hok
          injection hok with hok
          subst hok
          refine ⟨hsuf, rootedJoin_underOrEq bc ds hbc hds, ?_⟩
          intro hbase
          rcases rootedJoin_underOrEq bc ds hbc hds with heq | hstrict
          · rw [heq, hbase] at hsuf
            cases hsuf
          · exact hstrict
        · rw [if_neg hsuf] at hok
          cases hok
  · intro bc sub sp hbc hok
    unfold searchPathOf at hok
    by_cases hsub : sub = []
    · rw [if_pos hsub, if_pos (strHasPre_refl _)] at hok
      injection hok with hok
      exact Or.inl hok.symm
    · rw [if_neg hsub] at hok
      by_cases hdd : strContains (goClean sub) dotdot = true
      · rw [if_pos hdd] at hok
        cases hok
      · have hdd₂ : strContains (goClean sub) dotdot = false := by
          cases h : strContains (goClean sub) dotdot
          · rfl
          · exact absurd h hdd
        rw [if_neg hdd] at hok
        obtain ⟨ds, hds, hjoin⟩ := goJoin_base bc hbc (goClean sub) hdd₂
        rw [hjoin, if_pos (rootedJoin_append_pre bc ds hbc hds)] at hok
        injection hok with hok
        rw [← hok]
        exact rootedJoin_underOrEq bc ds hbc hds

/-- Witness for C1: over root `/v`, the accepted path `a.md` resolves
to `/v/a.md` (markdown suffix, strictly under the root since `/v` does
not end in `".md"`); the subpath `sub` resolves at or below the root;
and a concrete walk emission extends its start directory. -/
theorem validatePath_containment_witness :
    (strHasSuf "/v/a.md".data mdSuffix = true ∧
      underOrEq (rootedJoin ["v".data]) "/v/a.md".data ∧
      (strHasSuf (rootedJoin ["v".data]) mdSuffix = false →
        strictlyUnder (rootedJoin ["v".data]) "/v/a.md".data)) ∧
    underOrEq (rootedJoin ["v".data]) "/v/sub".data ∧
    extendsDir "/v".data "/v/a.md".data :=
  ⟨validatePath_containment.1 ["v".data] "a.md".data "/v/a.md".data (by decide) (by decide),
   validatePath_containment.2.1 ["v".data] "sub".data "/v/sub".data (by decide) (by decide),
   validatePath_containment.2.2.1 true "/v".data "/v/a.md".data "ca".data
     (.dir "v".data true (.cons (.file "a.md".data true "ca".data) .nil)) (by decide)⟩

/-- Claim C1 counterexample: a vault root directory may itself be named
with a `".md"` suffix; with root `/vault.md` the accepted input `"."`
resolves to the root itself, which is not strictly inside the root, so
the claim as stated ("every accepted path resolves strictly inside the
root") is false. -/
theorem validatePath_containment_cex :
    validatePath "/vault.md".data ".".data = .ok "/vault.md".data ∧
    "/vault.md".data = rootedJoin ["vault.md".data] ∧
    goodComps ["vault.md".data] ∧
    ¬ strictlyUnder "/vault.md".data "/vault.md".data := by
  refine ⟨by decide, by decide, by decide, ?_⟩
  intro h
  exact absurd (strictlyUnder_length h) (lt_irrefl _)
